import Mathlib

/-!
Verification of the computational core of the Peru minimum-temperature
raster-analysis app (`src/app/streamlit_app.py`).

The development shallowly embeds the three core pieces of the source:

* `normalize_str` — the name normalizer (NFD decomposition, removal of
  combining marks, upper-casing), modelled over the finite fragment of
  Unicode that Peruvian district names use (the Spanish alphabet with its
  acute/tilde/diaeresis marks, both precomposed and combining forms).
* `compute_stats` — the per-feature zonal reduction.  The geometric
  rasterize-and-mask step performed by `rasterstats`/`shapely` is
  abstracted as the masked window it produces for each feature: a grid of
  cells, each carrying its raw raster value and a validity flag
  (valid = inside the polygon and not equal to the nodata sentinel).
  The statistics follow `rasterstats.gen_zonal_stats`: the built-in
  `count/mean/min/max/std` reduce over the *valid* cells and are `None`
  when there are none, while the user-supplied `add_stats` lambdas for
  `p10`/`p90`/`range` receive the whole masked window.  In the `p10`/`p90`
  lambdas, `np.array(x, copy=True)` discards the mask, so those two are
  computed over the raw window values; `np.nanmax`/`np.nanmin` (used by the
  `range` lambda) take the slow, subclass-safe path on a masked array and
  therefore do respect the mask.  Numeric raster values are modelled as ℚ
  (the sources use a numeric nodata sentinel such as -9999, not NaN);
  Python `None`/NaN/`np.ma.masked` results are modelled as `Option.none`.
  The population standard deviation is irrational in general, so the
  record stores its square (the population variance); the claims use only
  its definedness, which coincides with `float(masked.std())` being
  defined.
* the module-level percentile-targeting code (global and Amazon-scoped
  percentile-10 cohorts) — pandas `Series.quantile` (NaN-dropping,
  linear interpolation, `ValueError` outside [0,1]), the `<=`-threshold
  filter, and the group-by-district minimum.  pandas sorts group keys in
  its output; the model keeps first-occurrence order and all statements
  about cohorts are order-insensitive (membership / permutation).
-/

namespace TminApp

/-! ### Name normalizer (`normalize_str`, streamlit_app.py lines 14-19)

The character model covers the fragment of Unicode relevant to the data:
base letters (Spanish letters, digits, punctuation are all `plain`),
precomposed letters with one combining mark (á, ñ, ü, …), and the
combining marks themselves (U+0301, U+0303, U+0308).  `nfd` is the
canonical decomposition, `isMn` the "Mn" general-category test, and
`upperChar` the upper-case mapping, exactly the three Unicode primitives
the source composes. -/

/-- A base character with no canonical decomposition (letters are carried
with their case; anything case-less such as digits or spaces is a `plain`
character whose `upperChar` is itself, represented by `up = true`). -/
inductive BaseChar where
  | la | le | li | lo | lu | ln | other
deriving DecidableEq, Repr

/-- The combining diacritical marks (general category Mn) used by Spanish. -/
inductive Mark where
  | acute | tilde | diaeresis
deriving DecidableEq, Repr

/-- The character fragment: plain base characters, precomposed
base-plus-mark characters, and combining marks, each letter in a lower or
upper form. -/
inductive UChar where
  | plain (b : BaseChar) (up : Bool)
  | pre (b : BaseChar) (m : Mark) (up : Bool)
  | comb (m : Mark)
deriving DecidableEq, Repr

/-- Canonical decomposition (the per-character content of
`unicodedata.normalize("NFD", s)`): a precomposed character splits into
its base character followed by its combining mark; everything else is
NFD-inert. -/
def nfd : UChar → List UChar
  | .pre b m u => [.plain b u, .comb m]
  | c => [c]

/-- Model of `unicodedata.category(c) == "Mn"`: exactly the combining marks. -/
def isMn : UChar → Bool
  | .comb _ => true
  | _ => false

/-- Model of `str.upper()`, per character: letters go to their upper form, combining
marks are unchanged (as in Unicode's case mappings). -/
def upperChar : UChar → UChar
  | .plain b _ => .plain b true
  | .pre b m _ => .pre b m true
  | .comb m => .comb m

/-- Source function `normalize_str` (lines 14-19): NFD-decompose, drop the combining
marks, upper-case what remains. -/
def normalize_str (s : List UChar) : List UChar :=
  ((s.flatMap nfd).filter (fun c => !isMn c)).map upperChar

/-! ### Zonal statistics (`compute_stats`, lines 21-42) -/

/-- One cell of the masked window `rasterstats` builds for a feature:
its raw raster value (for cells of the boundless read that fall outside
the raster extent this is the nodata fill value) and whether it is valid,
i.e. inside the rasterized polygon and not equal to the nodata sentinel. -/
structure Cell where
  value : ℚ
  valid : Bool
deriving DecidableEq, Repr

/-- A feature's masked window: the rows of the 2-D array clipped to the
feature's bounds (`len(x)` in the source is the number of rows). -/
abbrev Window := List (List Cell)

/-- Raw values of the window, mask discarded — what
`np.array(x, copy=True)` exposes to `np.nanpercentile`. -/
def rawVals (w : Window) : List ℚ :=
  w.flatMap (fun row => row.map (·.value))

/-- Values of the valid (unmasked) cells — what `masked.compressed()`
holds and what the built-in `count/mean/min/max/std` reduce over. -/
def validVals (w : Window) : List ℚ :=
  w.flatMap (fun row => (row.filter (·.valid)).map (·.value))

/-- Number of rows of the window (`len(x)` on the 2-D masked array). -/
def Window.rows (w : Window) : Nat := w.length

/-- Linear-interpolation evaluation at fractional order-statistic index
`h`: with `i = ⌊h⌋`, this is `s[i] + (h - i) * (s[i+1] - s[i])` (and
`s[i]` when `i` is the last index).  This is the common core of
`np.nanpercentile(..., interpolation="linear")` (with `h = q/100 * (n-1)`)
and `pandas.Series.quantile(q, interpolation="linear")`
(with `h = q * (n-1)`), applied to the sorted data. -/
def interpAt (s : List ℚ) (h : ℚ) : ℚ :=
  s.getD (⌊h⌋).toNat 0 +
    (h - ((⌊h⌋ : ℤ) : ℚ)) *
      (s.getD ((⌊h⌋).toNat + 1) (s.getD (⌊h⌋).toNat 0) - s.getD (⌊h⌋).toNat 0)

/-- The `p`-th linear-interpolation quantile (`p` a 0–1 fraction) of an
unsorted data list: sort, then interpolate at `h = p * (n - 1)`;
`none` on empty data (NaN in numpy/pandas). -/
def linQuantile (p : ℚ) (vals : List ℚ) : Option ℚ :=
  match vals with
  | [] => none
  | v :: vs =>
      let s := (v :: vs).insertionSort (· ≤ ·)
      some (interpAt s (p * ((v :: vs).length - 1 : ℚ)))

/-- The zonal-statistic record `compute_stats` emits for one feature:
one entry per requested statistic plus the `BAND` and `YEAR` columns.
`none` models Python `None` / NaN / `np.ma.masked`.  `std` stores the
population variance (see the file header): its definedness matches the
source's `float(masked.std())`. -/
structure ZonalRecord where
  count : Nat
  mean : Option ℚ
  min : Option ℚ
  max : Option ℚ
  std : Option ℚ
  p10 : Option ℚ
  p90 : Option ℚ
  range : Option ℚ
  band : Nat
  year : Nat
deriving DecidableEq, Repr

/-- Population variance of a data list (square of `masked.std()`). -/
def pvariance (l : List ℚ) : ℚ :=
  let n : ℚ := l.length
  let mu := l.sum / n
  (l.map (fun x => (x - mu) ^ 2)).sum / n

/-- The reduction of one feature's masked window, following
`rasterstats.gen_zonal_stats` plus the source's `add_stats` lambdas:

* `count/mean/min/max/std` over the valid cells, `None` (and `count = 0`)
  when there is no valid cell;
* `p10`/`p90`: `np.nanpercentile(np.array(x, copy=True), q)` over the raw
  (mask-dropped) window values whenever the window has at least one row
  (`len(x) > 0`), `np.nan` otherwise;
* `range`: `np.nanmax(x) - np.nanmin(x)` — mask-respecting max/min of the
  valid cells (`np.ma.masked`, i.e. `none`, when all cells are masked) —
  whenever the window has at least one row, `np.nan` otherwise. -/
def zonalRecordOf (w : Window) (band : Nat) : ZonalRecord :=
  let vals := validVals w
  { count := vals.length
    mean := if vals.isEmpty then none else some (vals.sum / (vals.length : ℚ))
    min := vals.min?
    max := vals.max?
    std := if vals.isEmpty then none else some (pvariance vals)
    p10 := if w.rows > 0 then linQuantile (10 / 100) (rawVals w) else none
    p90 := if w.rows > 0 then linQuantile (90 / 100) (rawVals w) else none
    range := if w.rows > 0 then
        match vals.max?, vals.min? with
        | some mx, some mn => some (mx - mn)
        | _, _ => none
      else none
    band := band
    year := 2019 + band }

/-- A boundary feature's attribute columns (the geometry itself only acts
through the masked window the raster source yields for the feature). -/
structure Feature where
  ubigeo : String
  departamen : String
  provincia : String
  distrito : String
deriving DecidableEq, Repr

/-- The opened raster source: presence of the affine transform (the only
thing `rasterstats` checks about it when handed a numpy array), the band
count, the declared nodata sentinel, and — abstracting
`src.read(band)` followed by rasterize-and-mask — the masked window each
(band, feature index) pair produces. -/
structure Src where
  transform : Option Unit
  count : Nat
  nodata : ℚ
  windows : Nat → Nat → Window

/-- Python-level errors surfaced by the embedded pipeline. -/
inductive PyErr where
  | valueError
deriving DecidableEq, Repr

/-- Source function `compute_stats(gdf, src, band)` (lines 21-42): reads the transform and
the band and calls `zonal_stats`, which raises
`ValueError("Specify affine transform for numpy arrays")` when the affine
transform is `None` and otherwise emits one record per feature, in
order.  An empty feature collection yields an empty table, not an error. -/
def compute_stats (gdf : List Feature) (src : Src) (band : Nat) :
    Except PyErr (List ZonalRecord) :=
  match src.transform with
  | none => .error .valueError
  | some _ =>
      .ok ((List.range gdf.length).map (fun i => zonalRecordOf (src.windows band i) band))

/-- The module-level per-band loop (lines 84-89): `compute_stats` for each
band `1..src.count`, tables concatenated row-wise (band-major order). -/
def allStatsConcat (gdf : List Feature) (src : Src) : List ZonalRecord :=
  (List.range src.count).flatMap
    (fun b => (List.range gdf.length).map (fun i => zonalRecordOf (src.windows (b + 1) i) (b + 1)))

/-- Source table `gdf_repeated` (line 92): the feature table repeated once per band. -/
def gdfRepeated (gdf : List Feature) (n : Nat) : List Feature :=
  (List.range n).flatMap (fun _ => gdf)

/-- The final `result` table (line 95): column-wise concatenation pairing
row `j` of `gdf_repeated` with row `j` of the concatenated statistics
(with the `TMIN_` prefix).  Raises inside `compute_stats` when the
transform is absent. -/
def resultTable (gdf : List Feature) (src : Src) :
    Except PyErr (List (Feature × ZonalRecord)) :=
  match src.transform with
  | none => .error .valueError
  | some _ => .ok ((gdfRepeated gdf src.count).zip (allStatsConcat gdf src))

/-! ### Percentile targeting (module level, lines 145-216)

The statistics table is read back from `Data/tmin_stats.csv`; only the
columns the targeting code touches are modelled. -/

/-- One row of the re-loaded statistics table. -/
structure CsvRow where
  departamen : String
  provincia : String
  distrito : String
  ubigeo : String
  tmin_mean : Option ℚ
deriving DecidableEq, Repr

/-- The group key `["UBIGEO", "DEPARTAMEN", "PROVINCIA", "DISTRITO"]`
(lines 157-158). -/
structure Key where
  ubigeo : String
  departamen : String
  provincia : String
  distrito : String
deriving DecidableEq, Repr

def rowKey (r : CsvRow) : Key :=
  ⟨r.ubigeo, r.departamen, r.provincia, r.distrito⟩

/-- pandas `<=` on possibly-NaN scalars: any comparison involving NaN is
`False`. -/
def pdLe : Option ℚ → Option ℚ → Bool
  | some a, some b => a ≤ b
  | _, _ => false

/-- Model of pandas `Series.quantile(q)` (linear interpolation): validates
`0 <= q <= 1` (raising `ValueError` otherwise), drops NaN entries, and
linearly interpolates the order statistics; NaN on an empty (or all-NaN)
series. -/
def seriesQuantile (q : ℚ) (xs : List (Option ℚ)) : Except PyErr (Option ℚ) :=
  if q < 0 ∨ 1 < q then .error .valueError
  else .ok (linQuantile q (xs.filterMap id))

/-- First-occurrence deduplication (pandas `Series.unique`, and the set of
group keys of a `groupby`); `seen` accumulates the keys already kept. -/
def uniqFirstAux [DecidableEq α] (seen : List α) : List α → List α
  | [] => []
  | x :: xs =>
      if x ∈ seen then uniqFirstAux seen xs
      else x :: uniqFirstAux (x :: seen) xs

def uniqFirst [DecidableEq α] (l : List α) : List α :=
  uniqFirstAux [] l

/-- Model of `groupby(["UBIGEO","DEPARTAMEN","PROVINCIA","DISTRITO"],
as_index=False)["TMIN_mean"].min()` (lines 157-160): one output row per
distinct key, carrying the minimum non-NaN mean of the group (NaN when
the group has no non-NaN mean).  pandas sorts the output by group key;
the model keeps first-occurrence key order, and every statement made
about cohorts is order-insensitive. -/
def groupMinRows (rows : List CsvRow) : List (Key × Option ℚ) :=
  (uniqFirst (rows.map rowKey)).map (fun k =>
    (k, ((rows.filter (fun r => rowKey r = k)).filterMap (·.tmin_mean)).min?))

/-- Model of `str.upper()` on whole strings: upper-case every character.
Implemented structurally over the character list (extensionally
`String.toUpper`, whose loop is compiled by well-founded recursion and
would not evaluate inside the kernel). -/
def strUpper (s : String) : String :=
  String.mk (s.toList.map Char.toUpper)

/-- Scope restriction (line 186): keep the rows whose upper-cased
department is in the scope list; no scope keeps the whole table. -/
def scopedTable (table : List CsvRow) (scope : Option (List String)) : List CsvRow :=
  match scope with
  | none => table
  | some sc => table.filter (fun r => sc.contains (strUpper r.departamen))

/-- The percentile threshold over a (possibly scoped) table, `p` assumed
in [0,1]: the `p`-th quantile of the `TMIN_mean` column (lines 150, 188). -/
def thresholdOf (table : List CsvRow) (p : ℚ) : Option ℚ :=
  linQuantile p (table.filterMap (·.tmin_mean))

/-- The cohort computation on the happy path (validated `p`): restrict to
the scope, filter to `TMIN_mean <= threshold`, group by district and take
each district's minimum mean (lines 150-160 for the global cohort,
lines 185-198 for the Amazon-scoped one, with the fixed `p = 0.10`
generalized to the spec's `percentile` parameter). -/
def cohortOk (table : List CsvRow) (p : ℚ) (scope : Option (List String)) :
    List (Key × Option ℚ) :=
  let t := scopedTable table scope
  groupMinRows (t.filter (fun r => pdLe r.tmin_mean (thresholdOf t p)))

/-- The spec contract `low_percentile_cohort(table, percentile, scope)`, the spec's
contract name for the targeting code: pandas raises `ValueError` for a
percentile outside [0,1]; otherwise the cohort of `cohortOk`.  A scope
matching no rows yields a NaN quantile and hence an empty cohort, with no
error raised. -/
def low_percentile_cohort (table : List CsvRow) (p : ℚ)
    (scope : Option (List String)) : Except PyErr (List (Key × Option ℚ)) :=
  if p < 0 ∨ 1 < p then .error .valueError
  else .ok (cohortOk table p scope)

/-- The global percentile-10 cohort `target_unique` (lines 150-160). -/
def target_unique (t : List CsvRow) : List (Key × Option ℚ) :=
  cohortOk t (10 / 100) none

/-- Source value `departamentos = target_unique["DEPARTAMEN"].unique()` (line 168). -/
def departamentos (t : List CsvRow) : List String :=
  uniqFirst ((target_unique t).map (fun x => x.1.departamen))

/-- Source value `amazon_depts` (line 185). -/
def amazon_depts : List String := ["LORETO", "UCAYALI", "MADRE DE DIOS"]

/-- The Amazon-scoped percentile-10 cohort `target_unique_amazonicos`
(lines 185-198). -/
def target_unique_amazonicos (t : List CsvRow) : List (Key × Option ℚ) :=
  cohortOk t (10 / 100) (some amazon_depts)

/-- Source value `departamentos_amaz` (line 203): the departments of the Amazon-scoped
cohort. -/
def departamentos_amaz (t : List CsvRow) : List String :=
  uniqFirst ((target_unique_amazonicos t).map (fun x => x.1.departamen))

/-- Source value `departamentos_amazonicos_df` (line 205): the department table the app
displays next to the Amazon cohort.  The source builds it from
`departamentos` — the *global* cohort's department list — not from
`departamentos_amaz`. -/
def departamentos_amazonicos_df (t : List CsvRow) : List String :=
  departamentos t

/-! ### Concrete inputs used by scenario theorems, counterexamples and
witnesses -/

/-- The masked window of a polygon lying fully outside the raster extent
(or covering only nodata cells): the boundless read fills the window with
the nodata sentinel (-9999 in the spec's scenario), and every cell is
masked. -/
def outsideWindow : Window := [[⟨-9999, false⟩]]

/-- An all-valid one-row window with values `0, 10, 10, …, 10` (11 cells):
its 10th percentile (10) exceeds its mean (100/11). -/
def elevenCellWindow : Window :=
  [(⟨0, true⟩ : Cell) :: List.replicate 10 ⟨10, true⟩]

/-- A window with one valid cell of value 5 next to a masked nodata cell:
the mask-dropping `p10` lambda sees the raw pair `[5, -9999]`. -/
def mixedWindow : Window := [[⟨5, true⟩, ⟨-9999, false⟩]]

/-- A two-feature boundary collection with distinct UBIGEO codes. -/
def gdfEx : List Feature :=
  [⟨"210101", "PUNO", "PUNO", "PUNO"⟩,
   ⟨"160101", "LORETO", "MAYNAS", "IQUITOS"⟩]

/-- A two-band raster source whose transform is present; feature 0 covers
one valid cell per band, feature 1 covers none. -/
def srcEx : Src :=
  { transform := some ()
    count := 2
    nodata := -9999
    windows := fun _ i => if i = 0 then [[⟨5, true⟩]] else outsideWindow }

/-- A raster source whose affine transform is absent. -/
def srcNoTransform : Src :=
  { transform := none
    count := 1
    nodata := -9999
    windows := fun _ _ => outsideWindow }

/-- Statistics-table row of a (cold) Andean district. -/
def punoRow : CsvRow := ⟨"PUNO", "PUNO", "ANANEA", "211002", some 1⟩

/-- Statistics-table row of an Amazonian district. -/
def loretoRow : CsvRow := ⟨"LORETO", "ALTO AMAZONAS", "BALSAPUERTO", "160202", some 20⟩

/-- A table on which the global p10 cohort is the Puno district while the
Amazon-scoped p10 cohort is the Loreto district. -/
def bugTable : List CsvRow := [punoRow, loretoRow]

/-- The spec's percentile scenario: a table with mean values 1..100, one
row per district, single year. -/
def table100 : List CsvRow :=
  (List.range 100).map (fun i =>
    ⟨"D" ++ toString (i + 1), "P", "X" ++ toString (i + 1),
      toString (i + 1), some ((i : ℚ) + 1)⟩)

/-- The cohort the spec scenario expects: the districts with means 1..10,
each reduced to its (single) mean. -/
def expectedCohort100 : List (Key × Option ℚ) :=
  (List.range 10).map (fun i =>
    (⟨toString (i + 1), "D" ++ toString (i + 1), "P", "X" ++ toString (i + 1)⟩,
      some ((i : ℚ) + 1)))

/-! ## Helper lemmas -/

/-- Every character of a normalized string is an upper-case plain
character: `nfd` only emits `plain`/`comb` characters, the filter removes
the `comb` ones, and `upperChar` sends `plain` to its upper form. -/
theorem mem_normalize_str {s : List UChar} {c : UChar} (h : c ∈ normalize_str s) :
    ∃ b, c = UChar.plain b true := by
  unfold normalize_str at h
  obtain ⟨a, ha, rfl⟩ := List.mem_map.mp h
  obtain ⟨ha1, ha2⟩ := List.mem_filter.mp ha
  obtain ⟨a0, _, hnfd⟩ := List.mem_flatMap.mp ha1
  cases a0 with
  | plain b u =>
      simp only [nfd, List.mem_singleton] at hnfd
      subst hnfd; exact ⟨b, rfl⟩
  | pre b m u =>
      simp only [nfd, List.mem_cons, List.not_mem_nil, or_false] at hnfd
      rcases hnfd with rfl | rfl
      · exact ⟨b, rfl⟩
      · simp [isMn] at ha2
  | comb m =>
      simp only [nfd, List.mem_singleton] at hnfd
      subst hnfd; simp [isMn] at ha2

/-- A list of upper-case plain characters is a fixed point of
`normalize_str`. -/
theorem normalize_str_fixed {l : List UChar}
    (h : ∀ c ∈ l, ∃ b, c = UChar.plain b true) : normalize_str l = l := by
  induction l with
  | nil => rfl
  | cons c cs ih =>
      obtain ⟨b, rfl⟩ := h c (List.mem_cons_self c cs)
      have hrest := ih (fun c hc => h c (List.mem_cons_of_mem _ hc))
      simpa [normalize_str, nfd, isMn, upperChar] using hrest

/-- Fetching inside the bounds ignores the fallback value. -/
theorem getD_eq_getElem_of_lt (s : List ℚ) (d : ℚ) {i : Nat} (h : i < s.length) :
    s.getD i d = s[i] := by
  simp [List.getD_eq_getElem?_getD, List.getElem?_eq_getElem h]

/-- A sorted list is monotone in the (in-bounds) index, whatever the
fallback values. -/
theorem sorted_getD_mono {s : List ℚ} (hs : s.Sorted (· ≤ ·)) {i j : Nat}
    (hij : i ≤ j) (hj : j < s.length) (d e : ℚ) : s.getD i d ≤ s.getD j e := by
  have hi : i < s.length := Nat.lt_of_le_of_lt hij hj
  rw [getD_eq_getElem_of_lt s d hi, getD_eq_getElem_of_lt s e hj]
  rcases Nat.lt_or_eq_of_le hij with hlt | rfl
  · exact List.pairwise_iff_getElem.mp hs i j hi hj hlt
  · exact le_refl _

/-- The next order statistic is at least the current one (with the
source's fallback convention `hi := s.getD (i+1) lo`). -/
theorem getD_succ_ge {s : List ℚ} (hs : s.Sorted (· ≤ ·)) (i : Nat) :
    s.getD i 0 ≤ s.getD (i + 1) (s.getD i 0) := by
  by_cases hlt : i + 1 < s.length
  · exact sorted_getD_mono hs (Nat.le_succ i) hlt 0 _
  · simp [List.getD_eq_getElem?_getD, List.getElem?_eq_none (Nat.le_of_not_lt hlt)]

/-- The floor index of an interpolation position in [0, n-1] is an
in-bounds list index. -/
theorem floor_toNat_lt {s : List ℚ} {h : ℚ} (h0 : 0 ≤ h)
    (hn : h ≤ (s.length : ℚ) - 1) : (⌊h⌋).toNat < s.length := by
  have hf0 : (0 : ℤ) ≤ ⌊h⌋ := Int.le_floor.mpr (by exact_mod_cast h0)
  have hcast : ((s.length : ℚ) - 1) = (((s.length : ℤ) - 1 : ℤ) : ℚ) := by push_cast; ring
  have hfle : ⌊h⌋ ≤ (s.length : ℤ) - 1 := by
    have := Int.floor_mono (le_trans (Int.floor_le h) hn)
    rwa [hcast, Int.floor_intCast] at this
  omega

/-- The interpolated value lies between the two order statistics it
interpolates. -/
theorem interpAt_between {s : List ℚ} (hs : s.Sorted (· ≤ ·)) (h : ℚ) :
    s.getD (⌊h⌋).toNat 0 ≤ interpAt s h ∧
      interpAt s h ≤ s.getD ((⌊h⌋).toNat + 1) (s.getD (⌊h⌋).toNat 0) := by
  have hfr0 : 0 ≤ h - ((⌊h⌋ : ℤ) : ℚ) := sub_nonneg.mpr (Int.floor_le h)
  have hfr1 : h - ((⌊h⌋ : ℤ) : ℚ) ≤ 1 := by
    have := Int.lt_floor_add_one h
    linarith
  have hdiff : 0 ≤ s.getD ((⌊h⌋).toNat + 1) (s.getD (⌊h⌋).toNat 0) - s.getD (⌊h⌋).toNat 0 :=
    sub_nonneg.mpr (getD_succ_ge hs _)
  constructor
  · have := mul_nonneg hfr0 hdiff
    unfold interpAt
    linarith
  · have := mul_le_mul_of_nonneg_right hfr1 hdiff
    unfold interpAt
    linarith

/-- Interpolation over a sorted list is monotone in the position. -/
theorem interpAt_mono {s : List ℚ} (hs : s.Sorted (· ≤ ·)) {h1 h2 : ℚ}
    (h0 : 0 ≤ h1) (h12 : h1 ≤ h2) (hn : h2 ≤ (s.length : ℚ) - 1) :
    interpAt s h1 ≤ interpAt s h2 := by
  have hf10 : (0 : ℤ) ≤ ⌊h1⌋ := Int.le_floor.mpr (by exact_mod_cast h0)
  have hfm : ⌊h1⌋ ≤ ⌊h2⌋ := Int.floor_mono h12
  rcases Nat.lt_or_eq_of_le (show (⌊h1⌋).toNat ≤ (⌊h2⌋).toNat by omega) with hlt | heqn
  · -- different floor indices: chain through the order statistics between
    have hub1 : interpAt s h1 ≤ s.getD ((⌊h1⌋).toNat + 1) (s.getD (⌊h1⌋).toNat 0) :=
      (interpAt_between hs h1).2
    have hlb2 : s.getD (⌊h2⌋).toNat 0 ≤ interpAt s h2 :=
      (interpAt_between hs h2).1
    have hi2lt : (⌊h2⌋).toNat < s.length := floor_toNat_lt (le_trans h0 h12) hn
    have hmid : s.getD ((⌊h1⌋).toNat + 1) (s.getD (⌊h1⌋).toNat 0) ≤ s.getD (⌊h2⌋).toNat 0 :=
      sorted_getD_mono hs hlt hi2lt _ 0
    linarith
  · -- same floor index: the fractional parts compare like the positions
    have heq : ⌊h1⌋ = ⌊h2⌋ := by omega
    have hdiff : 0 ≤ s.getD ((⌊h1⌋).toNat + 1) (s.getD (⌊h1⌋).toNat 0) - s.getD (⌊h1⌋).toNat 0 :=
      sub_nonneg.mpr (getD_succ_ge hs _)
    have hfr : h1 - ((⌊h1⌋ : ℤ) : ℚ) ≤ h2 - ((⌊h2⌋ : ℤ) : ℚ) := by
      rw [← heq]; linarith
    unfold interpAt
    rw [← heq]
    have := mul_le_mul_of_nonneg_right hfr hdiff
    rw [← heq] at this
    linarith

/-- A quantile is `none` exactly on empty data. -/
theorem linQuantile_eq_none_iff {p : ℚ} {vals : List ℚ} :
    linQuantile p vals = none ↔ vals = [] := by
  cases vals <;> simp [linQuantile]

/-- Position bound for the quantile index: `p * (n - 1)` stays in
[0, n-1] for `p` in [0,1]. -/
theorem quantile_pos_bounds {p : ℚ} {n : Nat} (hn : 1 ≤ n) (h0 : 0 ≤ p) (h1 : p ≤ 1) :
    0 ≤ p * ((n : ℚ) - 1) ∧ p * ((n : ℚ) - 1) ≤ (n : ℚ) - 1 := by
  have hge : (0 : ℚ) ≤ (n : ℚ) - 1 := by
    have : (1 : ℚ) ≤ (n : ℚ) := by exact_mod_cast hn
    linarith
  exact ⟨mul_nonneg h0 hge, by nlinarith⟩

/-- The linear-interpolation quantile of nonempty data is attained
between a minimum and a maximum element of the data. -/
theorem linQuantile_bounds {p : ℚ} {vals : List ℚ} {q : ℚ}
    (h0 : 0 ≤ p) (h1 : p ≤ 1) (hq : linQuantile p vals = some q) :
    (∃ m ∈ vals, m ≤ q ∧ ∀ x ∈ vals, m ≤ x) ∧
      (∃ M ∈ vals, q ≤ M ∧ ∀ x ∈ vals, x ≤ M) := by
  cases vals with
  | nil => simp [linQuantile] at hq
  | cons v vs =>
    have hsort : (List.insertionSort (· ≤ ·) (v :: vs)).Sorted (· ≤ ·) :=
      List.sorted_insertionSort _ _
    have hperm : List.Perm (List.insertionSort (· ≤ ·) (v :: vs)) (v :: vs) :=
      List.perm_insertionSort _ _
    set s := List.insertionSort (· ≤ ·) (v :: vs) with hsdef
    have hlen : s.length = vs.length + 1 := by
      rw [hperm.length_eq]; simp
    have hpos : 0 < s.length := by omega
    have hq' : q = interpAt s (p * (((v :: vs).length : ℚ) - 1)) := by
      simp only [linQuantile] at hq
      exact (Option.some_injective _ hq).symm
    have hlencast : (((v :: vs).length : ℚ) - 1) = (s.length : ℚ) - 1 := by
      rw [hlen]; simp
    obtain ⟨hpb0, hpb1⟩ := quantile_pos_bounds (show 1 ≤ s.length by omega) h0 h1
    rw [hlencast] at hq'
    have hbet := interpAt_between hsort (p * ((s.length : ℚ) - 1))
    rw [← hq'] at hbet
    have hflt : (⌊p * ((s.length : ℚ) - 1)⌋).toNat < s.length := floor_toNat_lt hpb0 hpb1
    constructor
    · refine ⟨s.getD 0 0, ?_, ?_, ?_⟩
      · rw [getD_eq_getElem_of_lt s 0 hpos]
        exact hperm.mem_iff.mp (s.getElem_mem hpos)
      · exact le_trans (sorted_getD_mono hsort (Nat.zero_le _) hflt 0 0) hbet.1
      · intro x hx
        obtain ⟨j, hj, hxj⟩ := List.getElem_of_mem (hperm.mem_iff.mpr hx)
        rw [← hxj]
        have := sorted_getD_mono hsort (Nat.zero_le j) hj 0 0
        rwa [getD_eq_getElem_of_lt s 0 hj] at this
    · have hlast : s.length - 1 < s.length := by omega
      refine ⟨s.getD (s.length - 1) 0, ?_, ?_, ?_⟩
      · rw [getD_eq_getElem_of_lt s 0 hlast]
        exact hperm.mem_iff.mp (s.getElem_mem hlast)
      · refine le_trans hbet.2 ?_
        by_cases hsucc : (⌊p * ((s.length : ℚ) - 1)⌋).toNat + 1 < s.length
        · exact sorted_getD_mono hsort (by omega) hlast _ 0
        · have : s.getD ((⌊p * ((s.length : ℚ) - 1)⌋).toNat + 1)
              (s.getD (⌊p * ((s.length : ℚ) - 1)⌋).toNat 0) =
              s.getD (⌊p * ((s.length : ℚ) - 1)⌋).toNat 0 := by
            simp [List.getD_eq_getElem?_getD, List.getElem?_eq_none (Nat.le_of_not_lt hsucc)]
          rw [this]
          exact sorted_getD_mono hsort (by omega) hlast 0 0
      · intro x hx
        obtain ⟨j, hj, hxj⟩ := List.getElem_of_mem (hperm.mem_iff.mpr hx)
        rw [← hxj]
        have := sorted_getD_mono hsort (show j ≤ s.length - 1 by omega) hlast 0 0
        rwa [getD_eq_getElem_of_lt s 0 hj] at this

/-- The linear-interpolation quantile is monotone in the percentile. -/
theorem linQuantile_mono {p1 p2 : ℚ} {vals : List ℚ} {q1 : ℚ}
    (h0 : 0 ≤ p1) (h12 : p1 ≤ p2) (h2 : p2 ≤ 1)
    (hq : linQuantile p1 vals = some q1) :
    ∃ q2, linQuantile p2 vals = some q2 ∧ q1 ≤ q2 := by
  cases vals with
  | nil => simp [linQuantile] at hq
  | cons v vs =>
    have hsort : (List.insertionSort (· ≤ ·) (v :: vs)).Sorted (· ≤ ·) :=
      List.sorted_insertionSort _ _
    set s := List.insertionSort (· ≤ ·) (v :: vs) with hsdef
    have hlen : s.length = vs.length + 1 := by
      rw [(List.perm_insertionSort _ _).length_eq]; simp
    have hq' : q1 = interpAt s (p1 * (((v :: vs).length : ℚ) - 1)) := by
      simp only [linQuantile] at hq
      exact (Option.some_injective _ hq).symm
    refine ⟨interpAt s (p2 * (((v :: vs).length : ℚ) - 1)), rfl, ?_⟩
    have hlencast : (((v :: vs).length : ℚ) - 1) = (s.length : ℚ) - 1 := by
      rw [hlen]; simp
    obtain ⟨hpb0, _⟩ := quantile_pos_bounds (show 1 ≤ s.length by omega) h0 (le_trans h12 h2)
    obtain ⟨_, hpb1'⟩ := quantile_pos_bounds (show 1 ≤ s.length by omega)
      (le_trans h0 h12) h2
    have hge : (0 : ℚ) ≤ (s.length : ℚ) - 1 := by
      have : (1 : ℚ) ≤ (s.length : ℚ) := by exact_mod_cast (show 1 ≤ s.length by omega)
      linarith
    rw [hq', hlencast]
    exact interpAt_mono hsort hpb0 (mul_le_mul_of_nonneg_right h12 hge) hpb1'

/-- Folding `min` only goes below the accumulator. -/
theorem foldl_min_le_init (l : List ℚ) (b : ℚ) : l.foldl min b ≤ b := by
  induction l generalizing b with
  | nil => exact le_refl b
  | cons u us ih => exact le_trans (ih (min b u)) (min_le_left b u)

/-- Folding `min` goes below every list element. -/
theorem foldl_min_le_mem {l : List ℚ} {x : ℚ} (hx : x ∈ l) (b : ℚ) :
    l.foldl min b ≤ x := by
  induction l generalizing b with
  | nil => cases hx
  | cons u us ih =>
      rcases List.mem_cons.mp hx with rfl | hx'
      · exact le_trans (foldl_min_le_init us (min b x)) (min_le_right b x)
      · exact ih hx' (min b u)

/-- A `min`-fold lands on the accumulator or on a list element. -/
theorem foldl_min_mem (l : List ℚ) (b : ℚ) :
    l.foldl min b = b ∨ l.foldl min b ∈ l := by
  induction l generalizing b with
  | nil => exact Or.inl rfl
  | cons u us ih =>
      simp only [List.foldl_cons]
      rcases ih (min b u) with heq | hmem
      · rcases min_choice b u with hb | hu
        · exact Or.inl (heq.trans hb)
        · exact Or.inr (by rw [heq, hu]; exact List.mem_cons_self u us)
      · exact Or.inr (List.mem_cons_of_mem u hmem)

/-- Characterization of `List.min?`: the minimum bounds every element. -/
theorem min?_le_of_mem {l : List ℚ} {m x : ℚ} (hm : l.min? = some m) (hx : x ∈ l) :
    m ≤ x := by
  cases l with
  | nil => cases hx
  | cons v vs =>
      have hm' : m = vs.foldl min v := by
        simpa [List.min?] using hm.symm
      subst hm'
      rcases List.mem_cons.mp hx with rfl | hx'
      · exact foldl_min_le_init vs x
      · exact foldl_min_le_mem hx' v

/-- The minimum of a nonempty list is one of its elements. -/
theorem min?_mem_self {l : List ℚ} {m : ℚ} (hm : l.min? = some m) : m ∈ l := by
  cases l with
  | nil => cases hm
  | cons v vs =>
      have hm' : m = vs.foldl min v := by
        simpa [List.min?] using hm.symm
      subst hm'
      rcases foldl_min_mem vs v with heq | hmem
      · rw [heq]; exact List.mem_cons_self v vs
      · exact List.mem_cons_of_mem v hmem

/-- Folding `max` only goes above the accumulator. -/
theorem foldl_max_ge_init (l : List ℚ) (b : ℚ) : b ≤ l.foldl max b := by
  induction l generalizing b with
  | nil => exact le_refl b
  | cons u us ih => exact le_trans (le_max_left b u) (ih (max b u))

/-- Folding `max` goes above every list element. -/
theorem foldl_max_ge_mem {l : List ℚ} {x : ℚ} (hx : x ∈ l) (b : ℚ) :
    x ≤ l.foldl max b := by
  induction l generalizing b with
  | nil => cases hx
  | cons u us ih =>
      rcases List.mem_cons.mp hx with rfl | hx'
      · exact le_trans (le_max_right b x) (foldl_max_ge_init us (max b x))
      · exact ih hx' (max b u)

/-- A `max`-fold lands on the accumulator or on a list element. -/
theorem foldl_max_mem (l : List ℚ) (b : ℚ) :
    l.foldl max b = b ∨ l.foldl max b ∈ l := by
  induction l generalizing b with
  | nil => exact Or.inl rfl
  | cons u us ih =>
      simp only [List.foldl_cons]
      rcases ih (max b u) with heq | hmem
      · rcases max_choice b u with hb | hu
        · exact Or.inl (heq.trans hb)
        · exact Or.inr (by rw [heq, hu]; exact List.mem_cons_self u us)
      · exact Or.inr (List.mem_cons_of_mem u hmem)

/-- Characterization of `List.max?`: the maximum bounds every element. -/
theorem le_max?_of_mem {l : List ℚ} {M x : ℚ} (hM : l.max? = some M) (hx : x ∈ l) :
    x ≤ M := by
  cases l with
  | nil => cases hx
  | cons v vs =>
      have hM' : M = vs.foldl max v := by
        simpa [List.max?] using hM.symm
      subst hM'
      rcases List.mem_cons.mp hx with rfl | hx'
      · exact foldl_max_ge_init vs x
      · exact foldl_max_ge_mem hx' v

/-- The maximum of a nonempty list is one of its elements. -/
theorem max?_mem_self {l : List ℚ} {M : ℚ} (hM : l.max? = some M) : M ∈ l := by
  cases l with
  | nil => cases hM
  | cons v vs =>
      have hM' : M = vs.foldl max v := by
        simpa [List.max?] using hM.symm
      subst hM'
      rcases foldl_max_mem vs v with heq | hmem
      · rw [heq]; exact List.mem_cons_self v vs
      · exact List.mem_cons_of_mem v hmem

/-- Lower sum bound: a list of elements at least `m` sums to at least
`length * m`. -/
theorem length_mul_le_sum {l : List ℚ} {m : ℚ} (h : ∀ x ∈ l, m ≤ x) :
    (l.length : ℚ) * m ≤ l.sum := by
  induction l with
  | nil => simp
  | cons v vs ih =>
      have hv := h v (List.mem_cons_self v vs)
      have hvs := ih (fun x hx => h x (List.mem_cons_of_mem v hx))
      simp only [List.sum_cons, List.length_cons]
      push_cast
      linarith

/-- Upper sum bound: a list of elements at most `M` sums to at most
`length * M`. -/
theorem sum_le_length_mul {l : List ℚ} {M : ℚ} (h : ∀ x ∈ l, x ≤ M) :
    l.sum ≤ (l.length : ℚ) * M := by
  induction l with
  | nil => simp
  | cons v vs ih =>
      have hv := h v (List.mem_cons_self v vs)
      have hvs := ih (fun x hx => h x (List.mem_cons_of_mem v hx))
      simp only [List.sum_cons, List.length_cons]
      push_cast
      linarith

/-- Membership in the first-occurrence deduplication with a `seen`
accumulator. -/
theorem mem_uniqFirstAux {α : Type} [DecidableEq α] {x : α} {l : List α} :
    ∀ {seen : List α}, x ∈ uniqFirstAux seen l ↔ x ∈ l ∧ x ∉ seen := by
  induction l with
  | nil => intro seen; simp [uniqFirstAux]
  | cons y ys ih =>
      intro seen
      by_cases hy : y ∈ seen
      · rw [uniqFirstAux, if_pos hy, ih]
        constructor
        · rintro ⟨hx, hns⟩
          exact ⟨List.mem_cons_of_mem _ hx, hns⟩
        · rintro ⟨hx, hns⟩
          rcases List.mem_cons.mp hx with rfl | hx'
          · exact absurd hy hns
          · exact ⟨hx', hns⟩
      · rw [uniqFirstAux, if_neg hy]
        constructor
        · intro hx
          rcases List.mem_cons.mp hx with rfl | hx'
          · exact ⟨List.mem_cons_self _ _, hy⟩
          · obtain ⟨h1, h2⟩ := ih.mp hx'
            refine ⟨List.mem_cons_of_mem _ h1, fun hs => h2 (List.mem_cons_of_mem _ hs)⟩
        · rintro ⟨hx, hns⟩
          rcases List.mem_cons.mp hx with rfl | hx'
          · exact List.mem_cons_self _ _
          · by_cases hxy : x = y
            · subst hxy; exact List.mem_cons_self _ _
            · exact List.mem_cons_of_mem _
                (ih.mpr ⟨hx', fun hs => (List.mem_cons.mp hs).elim hxy hns⟩)

/-- First-occurrence deduplication preserves membership. -/
theorem mem_uniqFirst {α : Type} [DecidableEq α] {x : α} {l : List α} :
    x ∈ uniqFirst l ↔ x ∈ l := by
  rw [uniqFirst, mem_uniqFirstAux]; simp

/-- The keys of the grouped table are the deduplicated row keys. -/
theorem groupMinRows_keys (rows : List CsvRow) :
    (groupMinRows rows).map Prod.fst = uniqFirst (rows.map rowKey) := by
  unfold groupMinRows
  rw [List.map_map]
  exact List.map_id _

/-- A key appears in the grouped table iff some row carries it. -/
theorem mem_groupMinRows_keys {rows : List CsvRow} {k : Key} :
    k ∈ (groupMinRows rows).map Prod.fst ↔ ∃ r ∈ rows, rowKey r = k := by
  rw [groupMinRows_keys, mem_uniqFirst, List.mem_map]

/-- The grouped value of a key is the minimum mean over its rows. -/
theorem groupMinRows_val {rows : List CsvRow} {k : Key} {v : Option ℚ}
    (h : (k, v) ∈ groupMinRows rows) :
    v = ((rows.filter (fun r => rowKey r = k)).filterMap (fun r => r.tmin_mean)).min? := by
  unfold groupMinRows at h
  obtain ⟨k1, _, heq⟩ := List.mem_map.mp h
  have hk : k1 = k := congrArg Prod.fst heq
  have hv := congrArg Prod.snd heq
  simp only at hv
  rw [← hv, hk]

/-- Boolean pandas `<=` holds exactly between two present values in
order. -/
theorem pdLe_iff {a b : Option ℚ} :
    pdLe a b = true ↔ ∃ x y, a = some x ∧ b = some y ∧ x ≤ y := by
  cases a <;> cases b <;> simp [pdLe]

/-- On an all-valid window the raw and the valid values coincide. -/
theorem rawVals_eq_validVals {w : Window}
    (h : ∀ row ∈ w, ∀ c ∈ row, c.valid = true) : rawVals w = validVals w := by
  unfold rawVals validVals
  induction w with
  | nil => rfl
  | cons row rws ih =>
      have hrow : row.filter (fun c => c.valid) = row :=
        List.filter_eq_self.mpr (fun c hc => h row (List.mem_cons_self _ _) c hc)
      simp only [List.flatMap_cons, hrow,
        ih (fun r hr c hc => h r (List.mem_cons_of_mem _ hr) c hc)]

/-- A window with a valid value has at least one row. -/
theorem rows_pos_of_validVals_ne_nil {w : Window} (h : validVals w ≠ []) :
    w.rows > 0 := by
  cases w with
  | nil => exact absurd rfl h
  | cons row rws => simp [Window.rows]

/-- Length of a band-major concatenation of equal-length blocks. -/
theorem flatMap_range_length {α : Type} (f : Nat → List α) (M : Nat)
    (hf : ∀ b, (f b).length = M) :
    ∀ n, ((List.range n).flatMap f).length = n * M := by
  intro n
  induction n with
  | zero => simp
  | succ n ih =>
      rw [List.range_succ, List.flatMap_append, List.length_append, ih]
      simp [hf n, Nat.succ_mul]

/-- Indexing into a band-major concatenation of equal-length blocks:
position `b * M + i` reads block `b` at offset `i`. -/
theorem flatMap_range_getElem {α : Type} (f : Nat → List α) (M : Nat)
    (hf : ∀ b, (f b).length = M) :
    ∀ n b i, b < n → i < M → ((List.range n).flatMap f)[b * M + i]? = (f b)[i]? := by
  intro n
  induction n with
  | zero => intro b i hb _; cases hb
  | succ n ih =>
      intro b i hb hi
      rw [List.range_succ, List.flatMap_append]
      by_cases hbn : b < n
      · rw [List.getElem?_append_left]
        · exact ih b i hbn hi
        · rw [flatMap_range_length f M hf n]
          calc b * M + i < b * M + M := by omega
            _ = (b + 1) * M := by ring
            _ ≤ n * M := Nat.mul_le_mul_right M hbn
      · have hbeq : b = n := by omega
        subst hbeq
        rw [List.getElem?_append_right]
        · rw [flatMap_range_length f M hf b]
          have hsub : b * M + i - b * M = i := by omega
          rw [hsub]
          simp only [List.flatMap_cons, List.flatMap_nil, List.append_nil]
        · rw [flatMap_range_length f M hf b]
          omega

/-! ## Claim theorems

Batteries marks the `Rat` field operations `@[irreducible]`; concrete
evaluations by `decide` need them to reduce, so they are made locally
semireducible for the rest of this section. -/

section ClaimTheorems

attribute [local semireducible] Rat.add Rat.sub Rat.mul Rat.inv Rat.ofScientific

/-- C5: the name normalizer is total and idempotent.  Totality holds by
construction (`normalize_str` is a total Lean function over all strings
of the character model); idempotency holds because normalization leaves
only upper-case, NFD-inert, non-mark characters, which a second pass
keeps intact. -/
theorem C5_normalize_str_idempotent (s : List UChar) :
    normalize_str (normalize_str s) = normalize_str s :=
  normalize_str_fixed (fun _ hc => mem_normalize_str hc)

/-- C1 (code bug): a feature whose polygon covers zero valid cells — here
a polygon fully outside the raster extent, whose boundless-read window is
one nodata-filled masked cell — gets `count = 0` and NaN
`mean`/`min`/`max`/`std` (and a masked `range`), but its `p10` and `p90`
are the fabricated numeric value -9999: the `add_stats` lambdas receive
the whole masked window, whose row count is positive, and
`np.array(x, copy=True)` drops the mask before `np.nanpercentile`. -/
theorem C1_outside_polygon_p10_is_nodata :
    (zonalRecordOf outsideWindow 1).count = 0 ∧
    (zonalRecordOf outsideWindow 1).mean = none ∧
    (zonalRecordOf outsideWindow 1).min = none ∧
    (zonalRecordOf outsideWindow 1).max = none ∧
    (zonalRecordOf outsideWindow 1).std = none ∧
    (zonalRecordOf outsideWindow 1).range = none ∧
    (zonalRecordOf outsideWindow 1).p10 = some (-9999) ∧
    (zonalRecordOf outsideWindow 1).p90 = some (-9999) := by
  decide

/-- C2 (counterexample): a record with `count > 0` violating
`min <= p10 <= mean <= p90 <= max`.  On an all-valid window with values
`0, 10, 10, …, 10` (11 cells), `p10 = 10` but `mean = 100/11 < 10`, so
`p10 <= mean` fails even though every cell is valid — the claimed chain
is not a property of linear-interpolation percentiles. -/
theorem C2_counterexample_p10_above_mean :
    0 < (zonalRecordOf elevenCellWindow 1).count ∧
    (zonalRecordOf elevenCellWindow 1).p10 = some 10 ∧
    (zonalRecordOf elevenCellWindow 1).mean = some (100 / 11) ∧
    ¬ ((10 : ℚ) ≤ 100 / 11) := by
  decide

/-- C6 (counterexample): a department scope that matches no rows of the
table does not raise any error — the quantile of the empty scoped column
is NaN, the `<=` filter keeps nothing, and the cohort is silently empty
(`EmptyScopeError` exists nowhere in the source). -/
theorem C6_counterexample_empty_scope_is_silent :
    low_percentile_cohort [punoRow] (10 / 100) (some amazon_depts) = .ok [] := by
  rfl

/-- C7 (counterexample): an empty boundary collection does not make
`compute_stats` fail — it returns an empty statistics table
(`EmptyInputError` exists nowhere in the source). -/
theorem C7_counterexample_empty_gdf_is_ok :
    compute_stats [] srcEx 1 = .ok [] := rfl

/-- C9 (code bug): the department table displayed beside the Amazon-scoped
cohort is built from `departamentos` — the department list of the
*global* cohort — instead of `departamentos_amaz` (line 205 of the
source).  On `bugTable` the app displays PUNO, a department outside the
Amazon scope, while the Amazon cohort's actual department is LORETO. -/
theorem C9_amazon_department_table_is_global :
    departamentos_amazonicos_df bugTable = ["PUNO"] ∧
    departamentos_amaz bugTable = ["LORETO"] ∧
    ("PUNO" ∈ amazon_depts) = False := by
  decide

/-- C2 (amended): for every record with `count > 0`, `range = max - min`
holds exactly; and when every window cell is valid (so the mask-dropping
`p10`/`p90` lambdas see exactly the valid data), the true order
relations hold: `min <= p10 <= p90 <= max` and `min <= mean <= max`.
The claimed chain `p10 <= mean <= p90` is not a property of
linear-interpolation percentiles (see the counterexample), and with
masked cells present `p10`/`p90` can even fall outside `[min, max]`. -/
theorem C2_amended_range_exact_and_order_bounds (w : Window) (band : Nat)
    (hc : 0 < (zonalRecordOf w band).count) :
    (∃ mx mn, (zonalRecordOf w band).max = some mx ∧
        (zonalRecordOf w band).min = some mn ∧
        (zonalRecordOf w band).range = some (mx - mn)) ∧
    ((∀ row ∈ w, ∀ c ∈ row, c.valid = true) →
      ∃ mn mx p10v p90v meanv,
        (zonalRecordOf w band).min = some mn ∧
        (zonalRecordOf w band).max = some mx ∧
        (zonalRecordOf w band).p10 = some p10v ∧
        (zonalRecordOf w band).p90 = some p90v ∧
        (zonalRecordOf w band).mean = some meanv ∧
        mn ≤ p10v ∧ p10v ≤ p90v ∧ p90v ≤ mx ∧ mn ≤ meanv ∧ meanv ≤ mx) := by
  have hvne : validVals w ≠ [] := by
    intro hnil
    simp [zonalRecordOf, hnil] at hc
  have hrows : w.rows > 0 := rows_pos_of_validVals_ne_nil hvne
  obtain ⟨mn, hmn⟩ : ∃ mn, (validVals w).min? = some mn := by
    cases hv : validVals w with
    | nil => exact absurd hv hvne
    | cons a as => exact ⟨_, rfl⟩
  obtain ⟨mx, hmx⟩ : ∃ mx, (validVals w).max? = some mx := by
    cases hv : validVals w with
    | nil => exact absurd hv hvne
    | cons a as => exact ⟨_, rfl⟩
  constructor
  · exact ⟨mx, mn, by simp [zonalRecordOf, hmx], by simp [zonalRecordOf, hmn],
      by simp [zonalRecordOf, hrows, hmx, hmn]⟩
  · intro hall
    have hraw : rawVals w = validVals w := rawVals_eq_validVals hall
    obtain ⟨p10v, hp10⟩ : ∃ q, linQuantile (10 / 100) (rawVals w) = some q := by
      rw [hraw]
      cases hv : validVals w with
      | nil => exact absurd hv hvne
      | cons a as => exact ⟨_, rfl⟩
    obtain ⟨p90v, hp90, hp1090⟩ :=
      linQuantile_mono (by norm_num) (by norm_num : (10 : ℚ) / 100 ≤ 90 / 100)
        (by norm_num) hp10
    obtain ⟨⟨m1, hm1mem, hm1q, _⟩, _⟩ :=
      linQuantile_bounds (by norm_num) (by norm_num) hp10
    obtain ⟨_, M2, hM2mem, hM2q, _⟩ :=
      linQuantile_bounds (by norm_num) (by norm_num) hp90
    rw [hraw] at hm1mem hM2mem
    have hlen0 : 0 < (validVals w).length := List.length_pos.mpr hvne
    have hlenq : (0 : ℚ) < ((validVals w).length : ℚ) := by exact_mod_cast hlen0
    have hsum_lb := length_mul_le_sum (fun x hx => min?_le_of_mem hmn hx)
    have hsum_ub := sum_le_length_mul (fun x hx => le_max?_of_mem hmx hx)
    refine ⟨mn, mx, p10v, p90v, (validVals w).sum / ((validVals w).length : ℚ),
      by simp [zonalRecordOf, hmn], by simp [zonalRecordOf, hmx],
      by simp [zonalRecordOf, hrows, hp10], by simp [zonalRecordOf, hrows, hp90],
      by simp [zonalRecordOf, hvne], ?_, hp1090, ?_, ?_, ?_⟩
    · exact le_trans (min?_le_of_mem hmn hm1mem) hm1q
    · exact le_trans hM2q (le_max?_of_mem hmx hM2mem)
    · rw [le_div_iff₀ hlenq, mul_comm]
      exact hsum_lb
    · rw [div_le_iff₀ hlenq, mul_comm]
      exact hsum_ub

/-- Witness for C2 (amended) at the all-valid eleven-cell window. -/
theorem C2_amended_witness :
    (∃ mx mn, (zonalRecordOf elevenCellWindow 1).max = some mx ∧
        (zonalRecordOf elevenCellWindow 1).min = some mn ∧
        (zonalRecordOf elevenCellWindow 1).range = some (mx - mn)) ∧
    ((∀ row ∈ elevenCellWindow, ∀ c ∈ row, c.valid = true) →
      ∃ mn mx p10v p90v meanv,
        (zonalRecordOf elevenCellWindow 1).min = some mn ∧
        (zonalRecordOf elevenCellWindow 1).max = some mx ∧
        (zonalRecordOf elevenCellWindow 1).p10 = some p10v ∧
        (zonalRecordOf elevenCellWindow 1).p90 = some p90v ∧
        (zonalRecordOf elevenCellWindow 1).mean = some meanv ∧
        mn ≤ p10v ∧ p10v ≤ p90v ∧ p90v ≤ mx ∧ mn ≤ meanv ∧ meanv ≤ mx) :=
  C2_amended_range_exact_and_order_bounds elevenCellWindow 1 (by decide)

/-- C3: for every table and percentile, the global low-percentile cohort
keys are exactly the districts having a row whose mean is `<=` the
linear-interpolation `p`-quantile threshold, each reduced to the minimum
mean among its selected rows; and on the spec's scenario table (means
1..100, one district each) at the 10th percentile the threshold is 10.9
and the cohort is exactly the districts with means 1..10. -/
theorem C3_low_percentile_selection_and_scenario :
    (∀ (t : List CsvRow) (p : ℚ) (k : Key),
        k ∈ (cohortOk t p none).map Prod.fst ↔
          ∃ r ∈ t, rowKey r = k ∧ pdLe r.tmin_mean (thresholdOf t p) = true) ∧
    (∀ (t : List CsvRow) (p : ℚ) (k : Key) (v : Option ℚ),
        (k, v) ∈ cohortOk t p none →
          v = (((t.filter (fun r => pdLe r.tmin_mean (thresholdOf t p))).filter
                (fun r => rowKey r = k)).filterMap (fun r => r.tmin_mean)).min?) ∧
    thresholdOf table100 (10 / 100) = some (109 / 10) ∧
    cohortOk table100 (10 / 100) none = expectedCohort100 := by
  refine ⟨?_, ?_, ?_, ?_⟩
  · intro t p k
    simp only [cohortOk]
    rw [mem_groupMinRows_keys]
    constructor
    · rintro ⟨r, hr, hkey⟩
      obtain ⟨h1, h2⟩ := List.mem_filter.mp hr
      exact ⟨r, h1, hkey, h2⟩
    · rintro ⟨r, h1, hkey, h2⟩
      exact ⟨r, List.mem_filter.mpr ⟨h1, h2⟩, hkey⟩
  · intro t p k v h
    simp only [cohortOk] at h
    exact groupMinRows_val h
  · set_option maxRecDepth 10000 in decide
  · set_option maxRecDepth 10000 in decide

/-- Witness for C3: the selection characterization and the grouped value
at a concrete one-row table. -/
theorem C3_witness :
    (rowKey punoRow ∈ (cohortOk [punoRow] (10 / 100) none).map Prod.fst ↔
      ∃ r ∈ [punoRow], rowKey r = rowKey punoRow ∧
        pdLe r.tmin_mean (thresholdOf [punoRow] (10 / 100)) = true) ∧
    some 1 = ((([punoRow].filter
        (fun r => pdLe r.tmin_mean (thresholdOf [punoRow] (10 / 100)))).filter
        (fun r => rowKey r = rowKey punoRow)).filterMap (fun r => r.tmin_mean)).min? :=
  ⟨C3_low_percentile_selection_and_scenario.1 [punoRow] (10 / 100) (rowKey punoRow),
    C3_low_percentile_selection_and_scenario.2.1 [punoRow] (10 / 100)
      (rowKey punoRow) (some 1) (by decide)⟩

/-- C4: low-percentile cohort selection is monotone in the percentile:
for percentiles `p1 <= p2` in [0,1] over the same table and scope, every
district of the `p1` cohort is in the `p2` cohort (the threshold is a
monotone function of the percentile, so the `<=` selection only grows). -/
theorem C4_cohort_monotone_in_percentile (t : List CsvRow)
    (scope : Option (List String)) (p1 p2 : ℚ)
    (h0 : 0 ≤ p1) (h12 : p1 ≤ p2) (h2 : p2 ≤ 1) (k : Key)
    (hk : k ∈ (cohortOk t p1 scope).map Prod.fst) :
    k ∈ (cohortOk t p2 scope).map Prod.fst := by
  simp only [cohortOk] at hk ⊢
  rw [mem_groupMinRows_keys] at hk ⊢
  obtain ⟨r, hr, hkey⟩ := hk
  obtain ⟨hrt, hple⟩ := List.mem_filter.mp hr
  obtain ⟨m, q1, hm, hq1, hle⟩ := pdLe_iff.mp hple
  unfold thresholdOf at hq1
  obtain ⟨q2, hq2, h12q⟩ := linQuantile_mono h0 h12 h2 hq1
  refine ⟨r, List.mem_filter.mpr ⟨hrt, ?_⟩, hkey⟩
  rw [pdLe_iff]
  exact ⟨m, q2, hm, hq2, le_trans hle h12q⟩

/-- Witness for C4: the single Puno district is in the 10th-percentile
cohort and hence also in the 50th-percentile cohort. -/
theorem C4_witness :
    rowKey punoRow ∈ (cohortOk [punoRow] (1 / 2) none).map Prod.fst :=
  C4_cohort_monotone_in_percentile [punoRow] none (10 / 100) (1 / 2)
    (by norm_num) (by norm_num) (by norm_num) (rowKey punoRow) (by decide)

/-- C6 (amended): a department scope that matches no rows yields a
silently empty cohort (the quantile of the empty scoped column is NaN and
the `<=` filter keeps nothing) — no `EmptyScopeError` is raised; a
percentile outside [0,1] raises pandas `ValueError` (not a dedicated
`InvalidParameterError`); and the scoped cohort only contains districts
whose upper-cased department is in the scope. -/
theorem C6_amended_scope_and_percentile_validation (table : List CsvRow)
    (p : ℚ) (scope : List String) :
    (0 ≤ p → p ≤ 1 → scopedTable table (some scope) = [] →
        low_percentile_cohort table p (some scope) = .ok []) ∧
    (p < 0 ∨ 1 < p →
        low_percentile_cohort table p (some scope) = .error .valueError) ∧
    (∀ k v, (k, v) ∈ cohortOk table p (some scope) →
        scope.contains (strUpper k.departamen) = true) := by
  refine ⟨?_, ?_, ?_⟩
  · intro h0 h1 hempty
    unfold low_percentile_cohort
    rw [if_neg (by push_neg; exact ⟨h0, h1⟩)]
    congr 1
    simp only [cohortOk, hempty]
    rfl
  · intro hbad
    unfold low_percentile_cohort
    rw [if_pos hbad]
  · intro k v h
    simp only [cohortOk] at h
    have hk := List.mem_map_of_mem Prod.fst h
    rw [mem_groupMinRows_keys] at hk
    obtain ⟨r, hr, hkey⟩ := hk
    obtain ⟨hrs, _⟩ := List.mem_filter.mp hr
    unfold scopedTable at hrs
    obtain ⟨_, hcont⟩ := List.mem_filter.mp hrs
    have hdep : k.departamen = r.departamen := congrArg Key.departamen hkey.symm
    rw [hdep]
    exact hcont

/-- Witness for C6 (amended): an unmatched scope yields `ok []`, a
percentile of 2 yields `ValueError`, and the Amazon cohort's district on
`bugTable` has its department inside the scope. -/
theorem C6_amended_witness :
    low_percentile_cohort [punoRow] (10 / 100) (some ["LORETO"]) = .ok [] ∧
    low_percentile_cohort [punoRow] 2 (some ["LORETO"]) = .error .valueError ∧
    amazon_depts.contains (strUpper (rowKey loretoRow).departamen) = true :=
  ⟨(C6_amended_scope_and_percentile_validation [punoRow] (10 / 100) ["LORETO"]).1
      (by norm_num) (by norm_num) (by decide),
    (C6_amended_scope_and_percentile_validation [punoRow] 2 ["LORETO"]).2.1
      (by norm_num),
    (C6_amended_scope_and_percentile_validation bugTable (10 / 100) amazon_depts).2.2
      (rowKey loretoRow) (some 20) (by decide)⟩

/-- C7 (amended): `compute_stats` performs no input validation of its
own: a missing affine transform surfaces as the `rasterstats`
`ValueError` (there is no `ShapeMismatchError`); an empty boundary
collection yields an empty table, not an `EmptyInputError`; and a feature
with zero valid pixels yields a normal record whose `count` is 0. -/
theorem C7_amended_no_validation_errors (gdf : List Feature) (src : Src) (b : Nat) :
    (src.transform = none → compute_stats gdf src b = .error .valueError) ∧
    (∀ u, src.transform = some u →
      ∃ rs, compute_stats gdf src b = .ok rs ∧ rs.length = gdf.length ∧
        (gdf = [] → rs = []) ∧
        ∀ i (hi : i < rs.length),
          rs.get ⟨i, hi⟩ = zonalRecordOf (src.windows b i) b ∧
          (validVals (src.windows b i) = [] → (rs.get ⟨i, hi⟩).count = 0)) := by
  constructor
  · intro hn
    unfold compute_stats
    rw [hn]
  · intro u hu
    unfold compute_stats
    rw [hu]
    refine ⟨_, rfl, by simp, fun hgdf => by subst hgdf; rfl, ?_⟩
    intro i hi
    have hi' : i < gdf.length := by simpa using hi
    have hget : ((List.range gdf.length).map
        (fun i => zonalRecordOf (src.windows b i) b)).get ⟨i, hi⟩ =
        zonalRecordOf (src.windows b i) b := by
      simp [List.get_eq_getElem]
    refine ⟨hget, fun hvv => ?_⟩
    rw [hget]
    simp [zonalRecordOf, hvv]

/-- Witness for C7 (amended): the error branch at a transform-less source
and the ok branch at the two-feature example source. -/
theorem C7_amended_witness :
    compute_stats [] srcNoTransform 1 = .error .valueError ∧
    ∃ rs, compute_stats gdfEx srcEx 1 = .ok rs ∧ rs.length = gdfEx.length ∧
      (gdfEx = [] → rs = []) ∧
      ∀ i (hi : i < rs.length),
        rs.get ⟨i, hi⟩ = zonalRecordOf (srcEx.windows 1 i) 1 ∧
        (validVals (srcEx.windows 1 i) = [] → (rs.get ⟨i, hi⟩).count = 0) :=
  ⟨(C7_amended_no_validation_errors [] srcNoTransform 1).1 rfl,
    (C7_amended_no_validation_errors gdfEx srcEx 1).2 () rfl⟩

/-- C8: for a boundary collection of `M` features with distinct UBIGEO
codes and an `N`-band raster with a present transform, the concatenated
result table has exactly `N * M` rows in band-major order: row
`b * M + i` pairs feature `i`'s attribute columns (repeated identically
for every band) with the band-`(b+1)` record of feature `i`, and the
`(UBIGEO, band)` keys are pairwise distinct. -/
theorem C8_statistics_table_cross_product (gdf : List Feature) (src : Src)
    (u : Unit) (htr : src.transform = some u)
    (hnod : (gdf.map (fun f => f.ubigeo)).Nodup) :
    ∃ rows, resultTable gdf src = .ok rows ∧
      rows.length = src.count * gdf.length ∧
      (∀ b i, b < src.count → ∀ hi : i < gdf.length,
        rows[b * gdf.length + i]? =
          some (gdf[i], zonalRecordOf (src.windows (b + 1) i) (b + 1))) ∧
      (rows.map (fun row => (row.1.ubigeo, row.2.band))).Nodup := by
  have hg : ∀ b : Nat, ((fun _ : Nat => gdf) b).length = gdf.length := fun _ => rfl
  have hfl : ∀ b : Nat,
      ((fun b => (List.range gdf.length).map
        (fun i => zonalRecordOf (src.windows (b + 1) i) (b + 1))) b).length = gdf.length := by
    intro b; simp
  have hlen1 : (gdfRepeated gdf src.count).length = src.count * gdf.length :=
    flatMap_range_length _ gdf.length hg src.count
  have hlen2 : (allStatsConcat gdf src).length = src.count * gdf.length :=
    flatMap_range_length _ gdf.length hfl src.count
  refine ⟨(gdfRepeated gdf src.count).zip (allStatsConcat gdf src), ?_, ?_, ?_, ?_⟩
  · unfold resultTable
    rw [htr]
  · rw [List.length_zip, hlen1, hlen2, Nat.min_self]
  · intro b i hb hi
    rw [List.getElem?_zip_eq_some]
    constructor
    · unfold gdfRepeated
      rw [flatMap_range_getElem _ gdf.length hg src.count b i hb hi]
      exact List.getElem?_eq_getElem hi
    · unfold allStatsConcat
      rw [flatMap_range_getElem _ gdf.length hfl src.count b i hb hi]
      rw [List.getElem?_map, List.getElem?_range hi]
      rfl
  · -- pairwise-distinct (UBIGEO, band) keys
    set rows := (gdfRepeated gdf src.count).zip (allStatsConcat gdf src) with hrows
    have hlenr : rows.length = src.count * gdf.length := by
      rw [hrows, List.length_zip, hlen1, hlen2, Nat.min_self]
    have hM0 : ∀ j, j < src.count * gdf.length → 0 < gdf.length := by
      intro j hj
      rcases Nat.eq_zero_or_pos gdf.length with h0 | h0
      · rw [h0, Nat.mul_zero] at hj; cases hj
      · exact h0
    have hgetr : ∀ j (hj : j < src.count * gdf.length),
        ∀ hj' : j < rows.length,
        rows.get ⟨j, hj'⟩ = (gdf.get ⟨j % gdf.length, Nat.mod_lt j (hM0 j hj)⟩,
          zonalRecordOf (src.windows (j / gdf.length + 1) (j % gdf.length))
            (j / gdf.length + 1)) := by
      intro j hj hj'
      have h0 : 0 < gdf.length := hM0 j hj
      have hb : j / gdf.length < src.count := (Nat.div_lt_iff_lt_mul h0).mpr hj
      have hi : j % gdf.length < gdf.length := Nat.mod_lt j h0
      have hz : rows[j / gdf.length * gdf.length + j % gdf.length]? =
          some (gdf[j % gdf.length],
            zonalRecordOf (src.windows (j / gdf.length + 1) (j % gdf.length))
              (j / gdf.length + 1)) := by
        rw [hrows, List.getElem?_zip_eq_some]
        constructor
        · unfold gdfRepeated
          rw [flatMap_range_getElem _ gdf.length hg src.count _ _ hb hi]
          exact List.getElem?_eq_getElem hi
        · unfold allStatsConcat
          rw [flatMap_range_getElem _ gdf.length hfl src.count _ _ hb hi]
          rw [List.getElem?_map, List.getElem?_range hi]
          rfl
      have hjdm : j / gdf.length * gdf.length + j % gdf.length = j := by
        rw [Nat.mul_comm]
        exact Nat.div_add_mod j gdf.length
      rw [hjdm] at hz
      rw [List.getElem?_eq_getElem hj'] at hz
      exact Option.some.inj hz
    rw [List.nodup_iff_injective_get]
    intro j1 j2 hje
    have hlk : (rows.map (fun row => (row.1.ubigeo, row.2.band))).length = rows.length :=
      List.length_map _ _
    have hj1r : (j1 : Nat) < rows.length := lt_of_lt_of_eq j1.isLt hlk
    have hj2r : (j2 : Nat) < rows.length := lt_of_lt_of_eq j2.isLt hlk
    have hj1 : (j1 : Nat) < src.count * gdf.length := by rwa [hlenr] at hj1r
    have hj2 : (j2 : Nat) < src.count * gdf.length := by rwa [hlenr] at hj2r
    have h0 : 0 < gdf.length := hM0 j1 hj1
    have hv1 : (rows.map (fun row => (row.1.ubigeo, row.2.band))).get j1 =
        ((gdf.get ⟨(j1 : Nat) % gdf.length, Nat.mod_lt _ h0⟩).ubigeo,
          (j1 : Nat) / gdf.length + 1) := by
      have hmap : (rows.map (fun row => (row.1.ubigeo, row.2.band))).get j1 =
          (fun row => (row.1.ubigeo, row.2.band)) (rows.get ⟨(j1 : Nat), hj1r⟩) := by
        simp [List.get_eq_getElem, List.getElem_map]
      rw [hmap, hgetr j1 hj1 hj1r]
      rfl
    have hv2 : (rows.map (fun row => (row.1.ubigeo, row.2.band))).get j2 =
        ((gdf.get ⟨(j2 : Nat) % gdf.length, Nat.mod_lt _ h0⟩).ubigeo,
          (j2 : Nat) / gdf.length + 1) := by
      have hmap : (rows.map (fun row => (row.1.ubigeo, row.2.band))).get j2 =
          (fun row => (row.1.ubigeo, row.2.band)) (rows.get ⟨(j2 : Nat), hj2r⟩) := by
        simp [List.get_eq_getElem, List.getElem_map]
      rw [hmap, hgetr j2 hj2 hj2r]
      rfl
    rw [hv1, hv2, Prod.mk.injEq] at hje
    obtain ⟨hub, hband⟩ := hje
    have hdiv : (j1 : Nat) / gdf.length = (j2 : Nat) / gdf.length := by omega
    have hmod : (j1 : Nat) % gdf.length = (j2 : Nat) % gdf.length := by
      have hinj := List.nodup_iff_injective_get.mp hnod
      have hlm : (gdf.map (fun f => f.ubigeo)).length = gdf.length :=
        List.length_map _ _
      have hgeq : (gdf.map (fun f => f.ubigeo)).get
            ⟨(j1 : Nat) % gdf.length, by rw [hlm]; exact Nat.mod_lt _ h0⟩ =
          (gdf.map (fun f => f.ubigeo)).get
            ⟨(j2 : Nat) % gdf.length, by rw [hlm]; exact Nat.mod_lt _ h0⟩ := by
        rw [List.get_eq_getElem, List.get_eq_getElem, List.getElem_map, List.getElem_map]
        exact hub
      have := hinj hgeq
      exact congrArg Fin.val this
    apply Fin.ext
    calc (j1 : Nat) = gdf.length * ((j1 : Nat) / gdf.length) + (j1 : Nat) % gdf.length :=
          (Nat.div_add_mod _ _).symm
      _ = gdf.length * ((j2 : Nat) / gdf.length) + (j2 : Nat) % gdf.length := by
          rw [hdiv, hmod]
      _ = (j2 : Nat) := Nat.div_add_mod _ _

/-- Witness for C8 at the two-feature, two-band example. -/
theorem C8_witness :
    ∃ rows, resultTable gdfEx srcEx = .ok rows ∧
      rows.length = srcEx.count * gdfEx.length ∧
      (∀ b i, b < srcEx.count → ∀ hi : i < gdfEx.length,
        rows[b * gdfEx.length + i]? =
          some (gdfEx[i], zonalRecordOf (srcEx.windows (b + 1) i) (b + 1))) ∧
      (rows.map (fun row => (row.1.ubigeo, row.2.band))).Nodup :=
  C8_statistics_table_cross_product gdfEx srcEx () rfl (by decide)

/-- C10: over any table with at least one non-NaN mean and any percentile
in [0,1], the low-percentile cohort is non-empty: the linear-interpolation
quantile of a nonempty data set is at least its minimum, so the row with
the smallest mean always passes the `<=` filter. -/
theorem C10_cohort_nonempty (t : List CsvRow) (p : ℚ)
    (h0 : 0 ≤ p) (h1 : p ≤ 1)
    (hne : ∃ r ∈ t, r.tmin_mean.isSome) :
    cohortOk t p none ≠ [] := by
  obtain ⟨r0, hr0, hsome⟩ := hne
  obtain ⟨m0, hm0⟩ := Option.isSome_iff_exists.mp hsome
  have hmem0 : m0 ∈ t.filterMap (fun r => r.tmin_mean) :=
    List.mem_filterMap.mpr ⟨r0, hr0, hm0⟩
  obtain ⟨q, hq⟩ : ∃ q, linQuantile p (t.filterMap (fun r => r.tmin_mean)) = some q := by
    cases hvals : t.filterMap (fun r => r.tmin_mean) with
    | nil => rw [hvals] at hmem0; cases hmem0
    | cons v vs => exact ⟨_, rfl⟩
  obtain ⟨⟨m, hmmem, hmq, _⟩, _⟩ := linQuantile_bounds h0 h1 hq
  obtain ⟨rm, hrm, hrmm⟩ := List.mem_filterMap.mp hmmem
  intro hemp
  have hkmem : rowKey rm ∈ (cohortOk t p none).map Prod.fst := by
    simp only [cohortOk]
    rw [mem_groupMinRows_keys]
    refine ⟨rm, List.mem_filter.mpr ⟨hrm, ?_⟩, rfl⟩
    rw [pdLe_iff]
    exact ⟨m, q, hrmm, hq, hmq⟩
  rw [hemp] at hkmem
  cases hkmem

/-- Witness for C10 at a one-row table. -/
theorem C10_witness : cohortOk [punoRow] (10 / 100) none ≠ [] :=
  C10_cohort_nonempty [punoRow] (10 / 100) (by norm_num) (by norm_num)
    ⟨punoRow, List.mem_cons_self _ _, rfl⟩

end ClaimTheorems

end TminApp
